import Mathlib

/-!
# go-uuid62: base-N codec and UUID adapter

A shallow embedding of the two Go packages of the repository:

* `src/src/uuid62.go` (package `src`, the padding-capable variant), in namespace `src`;
* `src/uuid62.go` (package `uuid62`, the older root variant), in namespace `uuid62`.

Conventions of the embedding.

* A Go `string` and a `[]byte` holding text are a `List Char`, one `Char` per byte; every
  string the functions accept without error or produce is ASCII, where the two coincide, and
  `Char` order is the byte order.
* A `*big.Int` is an `Int`; a Go `int` is an `Int` (no arithmetic on it can overflow here).
* A `uuid.UUID` (a `[16]byte`) is a list of sixteen bytes, a byte being a `Fin 256`.
* A call returns an `Outcome`: either Go's pair of a value and an error (`none` for `nil`),
  or a run-time panic.
* The library functions the code calls (`big.Int.SetBytes`, `big.Int.Bytes`,
  `strings.IndexByte`, `strings.Replace`, `fmt.Sprintf`, `uuid.UUID.MarshalBinary`,
  `uuid.UUID.UnmarshalBinary`, the built-in `copy`) are modelled from their documentation.
-/

/-! ## Errors and outcomes -/

/-- The error values the code creates or passes on. -/
inductive GoError
  /-- The value `errors.New("Radix must be between 2-62 inclusive")`. -/
  | radix
  /-- The value `errors.New("Digit in string is outside specified radix's range")`. -/
  | digit
  /-- The error of `UnmarshalBinary` on a slice that is not 16 bytes long. -/
  | unmarshal
  deriving DecidableEq

/-- The outcome of a call: Go's `(value, error)` pair, or a run-time panic. -/
inductive Outcome (α : Type)
  | ret (val : α) (err : Option GoError)
  | panic
  deriving DecidableEq

/-- A byte. -/
abbrev Byte := Fin 256

/-! ## Library functions -/

namespace big

/-- The method `(*big.Int).SetBytes`: the bytes read as a big-endian unsigned integer. -/
def SetBytes (buf : List Byte) : Int :=
  buf.foldl (fun z b => z * 256 + (b.val : Int)) 0

/-- The minimal big-endian byte sequence of a natural number (empty for zero). -/
def natBytes (n : Nat) : List Byte :=
  if h : n = 0 then [] else natBytes (n / 256) ++ [⟨n % 256, Nat.mod_lt _ (by decide)⟩]
decreasing_by omega

/-- The method `(*big.Int).Bytes`: the absolute value as a big-endian byte slice. -/
def Bytes (x : Int) : List Byte := natBytes x.natAbs

end big

namespace strings

/-- The function `strings.IndexByte`: index of the first instance of `c` in `s`, or `-1`. -/
def IndexByte (s : List Char) (c : Char) : Int :=
  if s.indexOf c < s.length then (s.indexOf c : Int) else -1

/-- The call `strings.Replace(s, old, new, -1)` for one-byte `old` and `new`: every
occurrence is replaced. -/
def Replace (s : List Char) (old new : Char) : List Char :=
  s.map (fun c => if c = old then new else c)

end strings

namespace fmt

/-- The call `fmt.Sprintf("%<width>s", s)`: `s` right-justified with spaces on the left
up to `width` characters, and `s` itself when it is at least that long. -/
def Sprintf (width : Nat) (s : List Char) : List Char :=
  List.replicate (width - s.length) ' ' ++ s

end fmt

/-- The built-in `copy(dst[lo:], src)` seen on `dst`, for `lo ≤ len(dst)`: as many
elements of `src` as fit overwrite `dst` from position `lo` on. -/
def copyFrom (dst : List Byte) (lo : Nat) (src : List Byte) : List Byte :=
  dst.take lo ++ src.take (min (dst.length - lo) src.length)
    ++ dst.drop (lo + min (dst.length - lo) src.length)

/-- Indexing `s[k]` with a Go integer: `none` is the out-of-range panic. -/
def index (s : List Char) (k : Int) : Option Char :=
  if k < 0 then none else s[k.toNat]?

namespace uuid

/-- The type `uuid.UUID`, an array of 16 bytes. -/
structure UUID where
  bytes : List Byte
  size : bytes.length = 16
  deriving DecidableEq

/-- The zero value `uuid.UUID{}`. -/
def UUID.zero : UUID := ⟨List.replicate 16 0, by simp⟩

/-- The 128-bit unsigned integer a UUID stands for, most significant byte first. -/
def UUID.toInt (id : UUID) : Int := big.SetBytes id.bytes

/-- The method `MarshalBinary`: the 16 bytes, never an error. -/
def MarshalBinary (id : UUID) : List Byte × Option GoError := (id.bytes, none)

/-- The method `UnmarshalBinary` on a zero UUID: an error unless `data` has 16 bytes. -/
def UnmarshalBinary (data : List Byte) : UUID × Option GoError :=
  if h : data.length = 16 then (⟨data, h⟩, none) else (UUID.zero, some GoError.unmarshal)

end uuid

/-! ## Package `src` (`src/src/uuid62.go`) -/

namespace src

/-- The digit alphabet; a character's position is its digit value. -/
def alphabet : List Char :=
  "0123456789abcdefghijklmnopqrstuvwxyzABCDEFGHIJKLMNOPQRSTUVWXYZ".toList

/-- The loop of `BigInt2String`: while `i > 0`, divide `i` by `base` (Go's `QuoRem`,
truncated division) and put the digit of the remainder in front of `resultBytes`.
`none` is a panic of the alphabet lookup. -/
def BigInt2String.loop (base : Int) (hb : 2 ≤ base) (i : Int) (resultBytes : List Char) :
    Option (List Char) :=
  if h : 0 < i then
    match index alphabet (i.tmod base) with
    | none => none
    | some c => BigInt2String.loop base hb (i.tdiv base) (c :: resultBytes)
  else some resultBytes
termination_by i.toNat
decreasing_by
  have h1 : i.tdiv base = i / base := Int.tdiv_eq_ediv (le_of_lt h) (by omega)
  have h2 : i / base < i := Int.ediv_lt_of_lt_mul (by omega) (by nlinarith)
  omega

/-- Converts a big.Int to a string of arbitrary base up to 62. -/
def BigInt2String (n : Int) (radix : Int) : Outcome (List Char) :=
  if h : radix < 2 ∨ radix > 62 then Outcome.ret [] (some GoError.radix)
  else
    match BigInt2String.loop radix (by omega) n [] with
    | none => Outcome.panic
    | some resultBytes =>
      if resultBytes.length = 0 then Outcome.ret ['0'] none
      else Outcome.ret resultBytes none

/-- The loop of `String2BigInt` over the bytes of `s` not yet read, `i` being the index of
the first of them and `length` the length of `s`. -/
def String2BigInt.loop (radix : Int) (length : Nat) : List Char → Nat → Int → Outcome Int
  | [], _, acc => Outcome.ret acc none
  | digitChar :: rest, i, acc =>
    let place := length - i - 1
    let digit := strings.IndexByte alphabet digitChar
    if digit < 0 ∨ digit > radix - 1 then Outcome.ret 0 (some GoError.digit)
    else String2BigInt.loop radix length rest (i + 1) (acc + radix ^ place * digit)

/-- Creates a big.Int from a string of arbitrary base up to 62. -/
def String2BigInt (s : List Char) (radix : Int) : Outcome Int :=
  if radix < 2 ∨ radix > 62 then Outcome.ret 0 (some GoError.radix)
  else String2BigInt.loop radix s.length s 0 0

/-- Returns a string representation of the uuid `id` in base62, optionally padded in front
with zeroes to a total width of 23 bytes. -/
def Uuid2Base62String (id : uuid.UUID) (pad : Bool) : Outcome (List Char) :=
  match uuid.MarshalBinary id with
  | (_, some err) => Outcome.ret [] (some err)
  | (idBytes, none) =>
    match BigInt2String (big.SetBytes idBytes) 62 with
    | Outcome.panic => Outcome.panic
    | Outcome.ret _ (some err) => Outcome.ret [] (some err)
    | Outcome.ret s none =>
      if pad then Outcome.ret (strings.Replace (fmt.Sprintf 23 s) ' ' '0') none
      else Outcome.ret s none

/-- Returns a new uuid.UUID which has the same binary value as string `s` interpreted as a
base62 number. An error of `String2BigInt` gives the zero UUID and a nil error; the slice
expression `uuidBytes[16 - len(integerBytes):]` panics on a negative bound. -/
def Base62String2Uuid (s : List Char) : Outcome uuid.UUID :=
  match String2BigInt s 62 with
  | Outcome.panic => Outcome.panic
  | Outcome.ret _ (some _) => Outcome.ret uuid.UUID.zero none
  | Outcome.ret integer none =>
    let integerBytes := big.Bytes integer
    let uuidBytes : List Byte := List.replicate 16 0
    if 16 < integerBytes.length then Outcome.panic
    else
      match uuid.UnmarshalBinary (copyFrom uuidBytes (16 - integerBytes.length) integerBytes) with
      | (id, err) => Outcome.ret id err

end src

/-! ## Package `uuid62` (`src/uuid62.go`) -/

namespace uuid62

/-- The digit alphabet of the root package. -/
def alphabet : List Char :=
  "0123456789abcdefghijklmnopqrstuvwxyzABCDEFGHIJKLMNOPQRSTUVWXYZ".toList

/-- The loop of the root package's `BigInt2String`. -/
def BigInt2String.loop (base : Int) (hb : 2 ≤ base) (i : Int) (resultBytes : List Char) :
    Option (List Char) :=
  if h : 0 < i then
    match index alphabet (i.tmod base) with
    | none => none
    | some c => BigInt2String.loop base hb (i.tdiv base) (c :: resultBytes)
  else some resultBytes
termination_by i.toNat
decreasing_by
  have h1 : i.tdiv base = i / base := Int.tdiv_eq_ediv (le_of_lt h) (by omega)
  have h2 : i / base < i := Int.ediv_lt_of_lt_mul (by omega) (by nlinarith)
  omega

/-- The root package's `BigInt2String`: the loop's bytes as they are, with no case for an
empty result. -/
def BigInt2String (n : Int) (radix : Int) : Outcome (List Char) :=
  if h : radix < 2 ∨ radix > 62 then Outcome.ret [] (some GoError.radix)
  else
    match BigInt2String.loop radix (by omega) n [] with
    | none => Outcome.panic
    | some resultBytes => Outcome.ret resultBytes none

/-- The root package's UUID encoder (spelled `Uuuid2Base62String` in the source). -/
def Uuuid2Base62String (id : uuid.UUID) : Outcome (List Char) :=
  match uuid.MarshalBinary id with
  | (_, some err) => Outcome.ret [] (some err)
  | (idBytes, none) => BigInt2String (big.SetBytes idBytes) 62

end uuid62

/-! ## Notions used to state and prove the properties -/

/-- The value of a list of digits in base `b`, most significant digit first. -/
def beVal (b : Nat) : List Nat → Nat
  | [] => 0
  | d :: ds => d * b ^ ds.length + beVal b ds

/-- The 128-bit unsigned integer of a UUID as a natural number. -/
def uuid.UUID.toNat (id : uuid.UUID) : Nat := beVal 256 (id.bytes.map Fin.val)

namespace src

/-- The character of digit value `d` (the zero digit beyond the alphabet). -/
def digitChar (d : Nat) : Char := alphabet.getD d '0'

/-- The digits of `n` in base `b` as text, most significant digit first; empty for zero. -/
def digitsText (b n : Nat) : List Char := ((Nat.digits b n).reverse).map digitChar

/-- The text of `n` in base `b` with "0" for zero. -/
def natText (b n : Nat) : List Char := if n = 0 then ['0'] else digitsText b n

/-- The value of a text read as big-endian digits in base `r`. -/
def valBE (r : Int) : List Char → Int
  | [] => 0
  | c :: rest => r ^ rest.length * (alphabet.indexOf c : Int) + valBE r rest

/-- The digit values of the characters of a text, by position in the alphabet. -/
def digitValues (s : List Char) : List Nat := s.map (fun c => alphabet.indexOf c)

/-- The UUID `00000000-0000-0000-0000-00000000000a`, the integer 10. -/
def uuidTen : uuid.UUID := ⟨List.replicate 15 0 ++ [10], by decide⟩

/-- The UUID `00000000-0000-0000-0000-000000000024`, the integer 36. -/
def uuidThirtySix : uuid.UUID := ⟨List.replicate 15 0 ++ [36], by decide⟩

/-- The UUID `ffffffff-ffff-ffff-ffff-ffffffffffff`, the integer `2 ^ 128 - 1`. -/
def uuidMax : uuid.UUID := ⟨List.replicate 16 255, by decide⟩

/-- The UUID `3078350b-bfd0-41ff-8cc2-3a3a7969ceb9`. -/
def uuidVectorB9 : uuid.UUID :=
  ⟨[0x30, 0x78, 0x35, 0x0b, 0xbf, 0xd0, 0x41, 0xff, 0x8c, 0xc2, 0x3a, 0x3a, 0x79, 0x69, 0xce,
    0xb9], by decide⟩

/-- The UUID `3078350b-bfd0-41ff-8cc2-3a3a7969ceba`. -/
def uuidVectorBA : uuid.UUID :=
  ⟨[0x30, 0x78, 0x35, 0x0b, 0xbf, 0xd0, 0x41, 0xff, 0x8c, 0xc2, 0x3a, 0x3a, 0x79, 0x69, 0xce,
    0xba], by decide⟩

/-- The canonical shape of an encoding in radix `r`: a non-empty text of alphabet
characters of position below `r` that does not start with '0' unless it is "0". -/
def Canonical (r : Int) (s : List Char) : Prop :=
  s ≠ [] ∧ (∀ c ∈ s, c ∈ alphabet ∧ (alphabet.indexOf c : Int) < r) ∧
    (s.head? = some '0' → s = ['0'])

end src

/-! ## Digit lists -/

theorem beVal_append (b : Nat) (A B : List Nat) :
    beVal b (A ++ B) = beVal b A * b ^ B.length + beVal b B := by
  induction A with
  | nil => simp [beVal]
  | cons d A ih =>
    rw [List.cons_append, beVal, beVal, ih, List.length_append]
    ring

theorem beVal_replicate_zero (b k : Nat) : beVal b (List.replicate k 0) = 0 := by
  induction k with
  | zero => simp [beVal]
  | succ k ih => simp [List.replicate_succ, beVal, ih]

theorem beVal_lt {b : Nat} (L : List Nat) (hL : ∀ d ∈ L, d < b) : beVal b L < b ^ L.length := by
  induction L with
  | nil => simp [beVal]
  | cons d L ih =>
    have hd : d < b := hL d (List.mem_cons_self d L)
    have hrest := ih (fun x hx => hL x (List.mem_cons_of_mem d hx))
    rw [beVal, List.length_cons, pow_succ]
    have h1 : (d + 1) * b ^ L.length ≤ b * b ^ L.length := Nat.mul_le_mul_right _ hd
    nlinarith

/-- Numeric order of equally long digit lists is their lexicographic order. -/
theorem beVal_lt_iff_lex {b : Nat} :
    ∀ (L₁ L₂ : List Nat), L₁.length = L₂.length → (∀ d ∈ L₁, d < b) → (∀ d ∈ L₂, d < b) →
      (beVal b L₁ < beVal b L₂ ↔ List.Lex (fun x y => x < y) L₁ L₂) := by
  intro L₁
  induction L₁ with
  | nil =>
    intro L₂ hlen _ _
    cases L₂ with
    | nil => simp [beVal]
    | cons y L₂ => simp at hlen
  | cons x L₁ ih =>
    intro L₂ hlen h₁ h₂
    cases L₂ with
    | nil => simp at hlen
    | cons y L₂ =>
      have hlenT : L₁.length = L₂.length := by simpa using hlen
      have hA : ∀ d ∈ L₁, d < b := fun d hd => h₁ d (List.mem_cons_of_mem x hd)
      have hB : ∀ d ∈ L₂, d < b := fun d hd => h₂ d (List.mem_cons_of_mem y hd)
      have hv₁ := beVal_lt L₁ hA
      have hv₂ := beVal_lt L₂ hB
      rw [hlenT] at hv₁
      simp only [beVal, hlenT]
      constructor
      · intro h
        rcases lt_trichotomy x y with hxy | hxy | hxy
        · exact List.Lex.rel hxy
        · subst hxy
          exact List.Lex.cons ((ih L₂ hlenT hA hB).mp (by omega))
        · exfalso
          have h3 : (y + 1) * b ^ L₂.length ≤ x * b ^ L₂.length := Nat.mul_le_mul_right _ hxy
          nlinarith
      · intro h
        cases h with
        | rel hxy =>
          have h3 : (x + 1) * b ^ L₂.length ≤ y * b ^ L₂.length := Nat.mul_le_mul_right _ hxy
          nlinarith
        | cons hlex =>
          have := (ih L₂ hlenT hA hB).mpr hlex
          omega

/-- Equally long digit lists of the same value are equal. -/
theorem beVal_inj {b : Nat} (L₁ L₂ : List Nat) (hlen : L₁.length = L₂.length)
    (h₁ : ∀ d ∈ L₁, d < b) (h₂ : ∀ d ∈ L₂, d < b) (h : beVal b L₁ = beVal b L₂) : L₁ = L₂ := by
  induction L₁ generalizing L₂ with
  | nil =>
    cases L₂ with
    | nil => rfl
    | cons y L₂ => simp at hlen
  | cons x L₁ ih =>
    cases L₂ with
    | nil => simp at hlen
    | cons y L₂ =>
      have hlenT : L₁.length = L₂.length := by simpa using hlen
      have hA : ∀ d ∈ L₁, d < b := fun d hd => h₁ d (List.mem_cons_of_mem x hd)
      have hB : ∀ d ∈ L₂, d < b := fun d hd => h₂ d (List.mem_cons_of_mem y hd)
      have hv₁ := beVal_lt L₁ hA
      have hv₂ := beVal_lt L₂ hB
      rw [hlenT] at hv₁
      simp only [beVal, hlenT] at h
      have hxy : x = y := by
        rcases lt_trichotomy x y with hxy | hxy | hxy
        · exfalso
          have h3 : (x + 1) * b ^ L₂.length ≤ y * b ^ L₂.length := Nat.mul_le_mul_right _ hxy
          nlinarith
        · exact hxy
        · exfalso
          have h3 : (y + 1) * b ^ L₂.length ≤ x * b ^ L₂.length := Nat.mul_le_mul_right _ hxy
          nlinarith
      subst hxy
      rw [ih L₂ hlenT hA hB (by omega)]

/-! ## The codec of package `src` -/

namespace src

theorem alphabet_length : alphabet.length = 62 := by decide

theorem alphabet_nodup : alphabet.Nodup := by decide

theorem index_alphabet {d : Nat} (hd : d < 62) :
    index alphabet (d : Int) = some (digitChar d) := by
  have hlen : d < alphabet.length := by rw [alphabet_length]; exact hd
  have h0 : ¬ ((d : Int) < 0) := by omega
  simp only [index, h0, if_false, Int.toNat_ofNat, digitChar, List.getD_eq_getElem?_getD,
    List.getElem?_eq_getElem hlen, Option.getD_some]

theorem digitsText_zero (b : Nat) : digitsText b 0 = [] := by
  simp [digitsText]

theorem digitsText_pos {b n : Nat} (hb : 2 ≤ b) (hn : 0 < n) :
    digitsText b n = digitsText b (n / b) ++ [digitChar (n % b)] := by
  simp [digitsText, Nat.digits_of_two_le_of_pos hb hn]

theorem BigInt2String.loop_eq (b : Nat) (hb : 2 ≤ (b : Int)) (hb62 : b ≤ 62) :
    ∀ (n : Nat) (acc : List Char),
      BigInt2String.loop (b : Int) hb (n : Int) acc = some (digitsText b n ++ acc) := by
  have hb2 : 2 ≤ b := by omega
  intro n
  induction n using Nat.strong_induction_on with
  | _ n ih =>
    intro acc
    rw [BigInt2String.loop]
    by_cases hn : n = 0
    · subst hn
      simp [digitsText_zero]
    · have hpos : (0 : Int) < (n : Int) := by omega
      have hmod : n % b < 62 := lt_of_lt_of_le (Nat.mod_lt _ (by omega)) hb62
      have hdiv : n / b < n := Nat.div_lt_self (by omega) (by omega)
      rw [dif_pos hpos, ← Int.ofNat_tmod, ← Int.ofNat_tdiv, index_alphabet hmod]
      simp only []
      rw [ih (n / b) hdiv, @digitsText_pos b n hb2 (Nat.pos_of_ne_zero hn)]
      simp

/-- The value of `BigInt2String` on a non-negative integer and a valid radix. -/
theorem BigInt2String_eq {n radix : Int} (hn : 0 ≤ n) (h2 : 2 ≤ radix) (h62 : radix ≤ 62) :
    BigInt2String n radix =
      Outcome.ret (if n = 0 then ['0'] else digitsText radix.toNat n.toNat) none := by
  obtain ⟨m, rfl⟩ := Int.eq_ofNat_of_zero_le hn
  obtain ⟨b, rfl⟩ := Int.eq_ofNat_of_zero_le (show (0 : Int) ≤ radix by omega)
  have hbad : ¬ ((b : Int) < 2 ∨ (b : Int) > 62) := by omega
  unfold BigInt2String
  rw [dif_neg hbad, BigInt2String.loop_eq b h2 (by omega) m []]
  by_cases hm : m = 0
  · subst hm
    simp [digitsText_zero]
  · have hpos : 0 < m := Nat.pos_of_ne_zero hm
    have hne : (m : Int) ≠ 0 := by omega
    have hlen : (digitsText b m).length ≠ 0 := by
      rw [@digitsText_pos b m (by omega) hpos]; simp
    simp only [List.append_nil, hlen, if_false, hne, Int.toNat_ofNat]


theorem IndexByte_of_mem {c : Char} (hc : c ∈ alphabet) :
    strings.IndexByte alphabet c = (alphabet.indexOf c : Int) := by
  simp [strings.IndexByte, List.indexOf_lt_length.mpr hc]

theorem IndexByte_of_not_mem {c : Char} (hc : c ∉ alphabet) :
    strings.IndexByte alphabet c = -1 := by
  have h : ¬ alphabet.indexOf c < alphabet.length := fun h => hc (List.indexOf_lt_length.mp h)
  simp [strings.IndexByte, h]

/-- The test the decoder makes on a digit, in terms of the alphabet. -/
theorem invalid_iff (r : Int) (c : Char) :
    (strings.IndexByte alphabet c < 0 ∨ strings.IndexByte alphabet c > r - 1) ↔
      (c ∉ alphabet ∨ r ≤ (alphabet.indexOf c : Int)) := by
  by_cases hc : c ∈ alphabet
  · rw [IndexByte_of_mem hc]
    constructor
    · rintro (h | h)
      · omega
      · right; omega
    · rintro (h | h)
      · exact absurd hc h
      · right; omega
  · rw [IndexByte_of_not_mem hc]
    constructor
    · intro _; exact Or.inl hc
    · intro _; left; decide

theorem String2BigInt.loop_ok (r : Int) (length : Nat) :
    ∀ (rest : List Char) (i : Nat) (acc : Int),
      (∀ c ∈ rest, c ∈ alphabet ∧ (alphabet.indexOf c : Int) < r) →
      length = i + rest.length →
      String2BigInt.loop r length rest i acc = Outcome.ret (acc + valBE r rest) none := by
  intro rest
  induction rest with
  | nil => intro i acc _ _; simp [String2BigInt.loop, valBE]
  | cons c rest ih =>
    intro i acc hall hlen
    have hc := hall c (List.mem_cons_self c rest)
    have hvalid : ¬ (strings.IndexByte alphabet c < 0 ∨ strings.IndexByte alphabet c > r - 1) := by
      rw [invalid_iff]
      rintro (h | h)
      · exact h hc.1
      · omega
    have hplace : length - i - 1 = rest.length := by
      simp only [List.length_cons] at hlen; omega
    rw [String2BigInt.loop]
    simp only [hvalid, if_false, hplace]
    rw [ih (i + 1) _ (fun d hd => hall d (List.mem_cons_of_mem c hd))
      (by simp only [List.length_cons] at hlen; omega), IndexByte_of_mem hc.1, valBE]
    ring_nf

theorem String2BigInt.loop_bad (r : Int) (length : Nat) :
    ∀ (rest : List Char) (i : Nat) (acc : Int),
      (∃ c ∈ rest, c ∉ alphabet ∨ r ≤ (alphabet.indexOf c : Int)) →
      String2BigInt.loop r length rest i acc = Outcome.ret 0 (some GoError.digit) := by
  intro rest
  induction rest with
  | nil => intro i acc h; obtain ⟨c, hc, _⟩ := h; simp at hc
  | cons c rest ih =>
    intro i acc h
    rw [String2BigInt.loop]
    by_cases hbad : strings.IndexByte alphabet c < 0 ∨ strings.IndexByte alphabet c > r - 1
    · simp only [hbad, if_true]
    · simp only [hbad, if_false]
      apply ih
      obtain ⟨d, hd, hd2⟩ := h
      rcases List.mem_cons.mp hd with rfl | hmem
      · exact absurd ((invalid_iff r d).mpr hd2) hbad
      · exact ⟨d, hmem, hd2⟩

theorem valBE_append (r : Int) (A B : List Char) :
    valBE r (A ++ B) = valBE r A * r ^ B.length + valBE r B := by
  induction A with
  | nil => simp [valBE]
  | cons c A ih =>
    rw [List.cons_append, valBE, valBE, ih, List.length_append]
    ring

theorem indexOf_digitChar {d : Nat} (hd : d < 62) : alphabet.indexOf (digitChar d) = d := by
  have hlen : d < alphabet.length := by rw [alphabet_length]; exact hd
  have h : digitChar d = alphabet[d] := by
    simp [digitChar, List.getD_eq_getElem?_getD, List.getElem?_eq_getElem hlen]
  rw [h]
  exact List.indexOf_getElem alphabet_nodup d hlen

theorem digitChar_mem {d : Nat} (hd : d < 62) : digitChar d ∈ alphabet := by
  have hlen : d < alphabet.length := by rw [alphabet_length]; exact hd
  have h : digitChar d = alphabet[d] := by
    simp [digitChar, List.getD_eq_getElem?_getD, List.getElem?_eq_getElem hlen]
  rw [h]
  exact List.getElem_mem hlen

theorem valBE_map_reverse (b : Nat) (L : List Nat) (hL : ∀ d ∈ L, d < 62) :
    valBE (b : Int) (L.reverse.map digitChar) = ((Nat.ofDigits b L : Nat) : Int) := by
  induction L with
  | nil => simp [valBE]
  | cons x L ih =>
    have hx : x < 62 := hL x (List.mem_cons_self x L)
    rw [List.reverse_cons, List.map_append, valBE_append,
      ih (fun d hd => hL d (List.mem_cons_of_mem x hd)), Nat.ofDigits_cons]
    simp only [List.map_cons, List.map_nil, List.length_singleton, valBE, List.length_nil,
      indexOf_digitChar hx]
    push_cast
    ring

theorem valBE_digitsText {b : Nat} (hb : 2 ≤ b) (hb62 : b ≤ 62) (n : Nat) :
    valBE (b : Int) (digitsText b n) = (n : Int) := by
  rw [digitsText, valBE_map_reverse, Nat.ofDigits_digits]
  intro d hd
  exact lt_of_lt_of_le (Nat.digits_lt_base (by omega) hd) hb62

theorem digitsText_valid {b : Nat} (hb : 2 ≤ b) (hb62 : b ≤ 62) (n : Nat) :
    ∀ c ∈ digitsText b n, c ∈ alphabet ∧ (alphabet.indexOf c : Int) < (b : Int) := by
  intro c hc
  simp only [digitsText, List.mem_map, List.mem_reverse] at hc
  obtain ⟨d, hd, rfl⟩ := hc
  have hdb : d < b := Nat.digits_lt_base (by omega) hd
  have hd62 : d < 62 := lt_of_lt_of_le hdb hb62
  exact ⟨digitChar_mem hd62, by rw [indexOf_digitChar hd62]; exact_mod_cast hdb⟩


theorem String2BigInt_ok {r : Int} (h2 : 2 ≤ r) (h62 : r ≤ 62) (s : List Char)
    (hs : ∀ c ∈ s, c ∈ alphabet ∧ (alphabet.indexOf c : Int) < r) :
    String2BigInt s r = Outcome.ret (valBE r s) none := by
  have hbad : ¬ (r < 2 ∨ r > 62) := by omega
  unfold String2BigInt
  rw [if_neg hbad, String2BigInt.loop_ok r s.length s 0 0 hs (by simp), zero_add]

theorem String2BigInt_bad {r : Int} (h2 : 2 ≤ r) (h62 : r ≤ 62) (s : List Char)
    (hs : ∃ c ∈ s, c ∉ alphabet ∨ r ≤ (alphabet.indexOf c : Int)) :
    String2BigInt s r = Outcome.ret 0 (some GoError.digit) := by
  have hbad : ¬ (r < 2 ∨ r > 62) := by omega
  unfold String2BigInt
  rw [if_neg hbad, String2BigInt.loop_bad r s.length s 0 0 hs]

/-- Either every character of a text is a digit of the radix, or one of them is not. -/
theorem valid_or_bad (r : Int) (s : List Char) :
    (∀ c ∈ s, c ∈ alphabet ∧ (alphabet.indexOf c : Int) < r) ∨
      (∃ c ∈ s, c ∉ alphabet ∨ r ≤ (alphabet.indexOf c : Int)) := by
  by_cases h : ∃ c ∈ s, c ∉ alphabet ∨ r ≤ (alphabet.indexOf c : Int)
  · exact Or.inr h
  · left
    intro c hc
    by_contra hcon
    apply h
    refine ⟨c, hc, ?_⟩
    by_cases hm : c ∈ alphabet
    · right
      by_contra hlt
      exact hcon ⟨hm, by omega⟩
    · exact Or.inl hm

theorem zero_mem_alphabet : '0' ∈ alphabet := by decide

theorem indexOf_zero : alphabet.indexOf '0' = 0 := by decide

theorem valBE_replicate_zero (r : Int) (k : Nat) : valBE r (List.replicate k '0') = 0 := by
  induction k with
  | zero => simp [valBE]
  | succ k ih => simp [List.replicate_succ, valBE, ih, indexOf_zero]

/-- C1. Codec round trip: for every non-negative integer `n` and every radix `r` with
`2 ≤ r ≤ 62`, `BigInt2String n r` returns a string `s` with a nil error, and
`String2BigInt s r` returns `n` with a nil error. -/
theorem codec_round_trip (n : Int) (hn : 0 ≤ n) (r : Int) (h2 : 2 ≤ r) (h62 : r ≤ 62) :
    ∃ s, BigInt2String n r = Outcome.ret s none ∧ String2BigInt s r = Outcome.ret n none := by
  refine ⟨_, BigInt2String_eq hn h2 h62, ?_⟩
  obtain ⟨m, rfl⟩ := Int.eq_ofNat_of_zero_le hn
  obtain ⟨b, rfl⟩ := Int.eq_ofNat_of_zero_le (show (0 : Int) ≤ r by omega)
  by_cases hm : (m : Int) = 0
  · rw [if_pos hm, hm, String2BigInt_ok h2 h62]
    · simp [valBE, indexOf_zero]
    · intro c hc
      rw [List.mem_singleton.mp hc]
      exact ⟨zero_mem_alphabet, by rw [indexOf_zero]; omega⟩
  · rw [if_neg hm, Int.toNat_ofNat, Int.toNat_ofNat,
      String2BigInt_ok h2 h62 _ (digitsText_valid (by omega) (by omega) m),
      valBE_digitsText (by omega) (by omega)]

/-- The round trip at `n = 59774123759` and radix 16. -/
theorem codec_round_trip_witness :
    (0 : Int) ≤ 59774123759 ∧ (2 : Int) ≤ 16 ∧ (16 : Int) ≤ 62 ∧
      ∃ s, BigInt2String 59774123759 16 = Outcome.ret s none ∧
        String2BigInt s 16 = Outcome.ret 59774123759 none :=
  ⟨by decide, by decide, by decide,
    codec_round_trip 59774123759 (by decide) 16 (by decide) (by decide)⟩

/-- C6. Zero canonicalization of encode: for every radix `r` with `2 ≤ r ≤ 62`,
`BigInt2String 0 r` returns the one-character string "0" with a nil error. -/
theorem encode_zero (r : Int) (h2 : 2 ≤ r) (h62 : r ≤ 62) :
    BigInt2String 0 r = Outcome.ret ['0'] none := by
  rw [BigInt2String_eq (le_refl 0) h2 h62, if_pos rfl]

/-- Zero is encoded as "0", not as the empty string, at radix 62. -/
theorem encode_zero_witness :
    (2 : Int) ≤ 62 ∧ (62 : Int) ≤ 62 ∧ BigInt2String 0 62 = Outcome.ret ['0'] none :=
  ⟨by decide, by decide, encode_zero 62 (by decide) (by decide)⟩

/-- C8. Radix validation: `BigInt2String n radix` returns the radix error exactly when
`radix < 2` or `radix > 62`, so does `String2BigInt text radix`, and with such a radix
`String2BigInt` returns the radix error whatever the text is. -/
theorem radix_validation (n : Int) (text : List Char) (radix : Int) :
    ((∃ s, BigInt2String n radix = Outcome.ret s (some GoError.radix)) ↔
        (radix < 2 ∨ radix > 62)) ∧
    ((∃ v, String2BigInt text radix = Outcome.ret v (some GoError.radix)) ↔
        (radix < 2 ∨ radix > 62)) ∧
    ((radix < 2 ∨ radix > 62) →
        String2BigInt text radix = Outcome.ret 0 (some GoError.radix)) := by
  refine ⟨⟨?_, ?_⟩, ⟨?_, ?_⟩, ?_⟩
  · rintro ⟨s, hs⟩
    by_contra hbad
    unfold BigInt2String at hs
    rw [dif_neg hbad] at hs
    split at hs
    · cases hs
    · split at hs <;> cases hs
  · intro hbad
    exact ⟨[], by unfold BigInt2String; rw [dif_pos hbad]⟩
  · rintro ⟨v, hv⟩
    by_contra hbad
    rcases valid_or_bad radix text with h | h
    · rw [String2BigInt_ok (by omega) (by omega) text h] at hv
      cases hv
    · rw [String2BigInt_bad (by omega) (by omega) text h] at hv
      cases hv
  · intro hbad
    exact ⟨0, by unfold String2BigInt; rw [if_pos hbad]⟩
  · intro hbad
    unfold String2BigInt
    rw [if_pos hbad]

/-- With radix 63 the text "-" gets the radix error, not the digit error. -/
theorem radix_validation_witness :
    String2BigInt ['-'] 63 = Outcome.ret 0 (some GoError.radix) :=
  (radix_validation 0 ['-'] 63).2.2 (by decide)

/-- C9. Digit validation: for every radix `r` with `2 ≤ r ≤ 62` and every text,
`String2BigInt text r` returns the digit error exactly when some character of the text is
not in the alphabet or has alphabet position at least `r`; otherwise it returns a value
with a nil error. -/
theorem digit_validation (text : List Char) (r : Int) (h2 : 2 ≤ r) (h62 : r ≤ 62) :
    ((∃ v, String2BigInt text r = Outcome.ret v (some GoError.digit)) ↔
        ∃ c ∈ text, c ∉ alphabet ∨ r ≤ (alphabet.indexOf c : Int)) ∧
    ((¬ ∃ c ∈ text, c ∉ alphabet ∨ r ≤ (alphabet.indexOf c : Int)) →
        ∃ v, String2BigInt text r = Outcome.ret v none) := by
  refine ⟨⟨?_, ?_⟩, ?_⟩
  · rintro ⟨v, hv⟩
    rcases valid_or_bad r text with h | h
    · rw [String2BigInt_ok h2 h62 text h] at hv
      cases hv
    · exact h
  · intro h
    exact ⟨0, String2BigInt_bad h2 h62 text h⟩
  · intro hno
    rcases valid_or_bad r text with h | h
    · exact ⟨_, String2BigInt_ok h2 h62 text h⟩
    · exact absurd h hno

/-- At radix 16 the text "dead0beef" has only digits of the radix and decodes, while "g"
is refused. -/
theorem digit_validation_witness :
    (∃ v, String2BigInt "dead0beef".toList 16 = Outcome.ret v none) ∧
      ∃ v, String2BigInt ['g'] 16 = Outcome.ret v (some GoError.digit) :=
  ⟨(digit_validation "dead0beef".toList 16 (by decide) (by decide)).2 (by decide),
    (digit_validation ['g'] 16 (by decide) (by decide)).1.2 (by decide)⟩

/-- C10. Left-padding is lossless for decode: for every radix `r` with `2 ≤ r ≤ 62`, every
text `s` that `String2BigInt` decodes to `v` with a nil error, and every `k`, the text of
`k` characters '0' followed by `s` decodes to `v` with a nil error as well. -/
theorem left_padding_lossless (r : Int) (h2 : 2 ≤ r) (h62 : r ≤ 62) (s : List Char) (v : Int)
    (k : Nat) (hs : String2BigInt s r = Outcome.ret v none) :
    String2BigInt (List.replicate k '0' ++ s) r = Outcome.ret v none := by
  rcases valid_or_bad r s with h | h
  · rw [String2BigInt_ok h2 h62 s h] at hs
    have hv : valBE r s = v := by cases hs; rfl
    have hall : ∀ c ∈ List.replicate k '0' ++ s,
        c ∈ alphabet ∧ (alphabet.indexOf c : Int) < r := by
      intro c hc
      rcases List.mem_append.mp hc with hc | hc
      · rw [(List.mem_replicate.mp hc).2]
        exact ⟨zero_mem_alphabet, by rw [indexOf_zero]; omega⟩
      · exact h c hc
    rw [String2BigInt_ok h2 h62 _ hall, valBE_append, valBE_replicate_zero, hv]
    simp
  · rw [String2BigInt_bad h2 h62 s h] at hs
    cases hs

/-- The text "13" decodes to 13 at radix 10, and so does "00000013". -/
theorem left_padding_lossless_witness :
    String2BigInt "13".toList 10 = Outcome.ret 13 none ∧
      String2BigInt (List.replicate 6 '0' ++ "13".toList) 10 = Outcome.ret 13 none :=
  ⟨by decide, left_padding_lossless 10 (by decide) (by decide) "13".toList 13 6 (by decide)⟩

end src

/-! ## Bytes and big integers -/

namespace big

theorem foldl_bytes (bs : List Byte) : ∀ z : Int,
    bs.foldl (fun z b => z * 256 + (b.val : Int)) z =
      z * 256 ^ bs.length + ((beVal 256 (bs.map Fin.val) : Nat) : Int) := by
  induction bs with
  | nil => intro z; simp [beVal]
  | cons b bs ih =>
    intro z
    rw [List.foldl_cons, ih, List.map_cons, beVal, List.length_cons, List.length_map]
    push_cast
    ring

theorem SetBytes_eq (bs : List Byte) :
    SetBytes bs = ((beVal 256 (bs.map Fin.val) : Nat) : Int) := by
  rw [SetBytes, foldl_bytes]
  simp

theorem natBytes_zero : natBytes 0 = [] := by
  rw [natBytes]; simp

theorem natBytes_pos {n : Nat} (hn : n ≠ 0) :
    natBytes n = natBytes (n / 256) ++ [⟨n % 256, Nat.mod_lt _ (by decide)⟩] := by
  rw [natBytes]; simp [hn]

theorem beVal_natBytes (n : Nat) : beVal 256 ((natBytes n).map Fin.val) = n := by
  induction n using Nat.strong_induction_on with
  | _ n ih =>
    by_cases hn : n = 0
    · subst hn; simp [natBytes_zero, beVal]
    · rw [natBytes_pos hn, List.map_append, beVal_append, ih (n / 256) (by omega)]
      simp only [List.map_cons, List.map_nil, List.length_singleton, beVal, List.length_nil]
      omega

theorem natBytes_length_le (k : Nat) : ∀ n : Nat, n < 256 ^ k → (natBytes n).length ≤ k := by
  induction k with
  | zero =>
    intro n hn
    have h0 : n = 0 := by simpa using hn
    subst h0
    simp [natBytes_zero]
  | succ k ih =>
    intro n hn
    by_cases h0 : n = 0
    · subst h0; simp [natBytes_zero]
    · have hdiv : n / 256 < 256 ^ k := by
        rw [Nat.div_lt_iff_lt_mul (by decide)]
        rw [pow_succ] at hn
        exact hn
      rw [natBytes_pos h0, List.length_append, List.length_singleton]
      exact Nat.succ_le_succ (ih _ hdiv)

end big

theorem bytes_lt (bs : List Byte) : ∀ d ∈ bs.map Fin.val, d < 256 := by
  intro d hd
  obtain ⟨b, _, rfl⟩ := List.mem_map.mp hd
  exact b.isLt

theorem copyFrom_zeros (w : Nat) (bs : List Byte) (h : bs.length ≤ w) :
    copyFrom (List.replicate w 0) (w - bs.length) bs =
      List.replicate (w - bs.length) 0 ++ bs := by
  have h1 : min (w - (w - bs.length)) bs.length = bs.length := by omega
  have h2 : w - bs.length + bs.length = w := by omega
  simp [copyFrom, h1, h2, List.take_replicate]

namespace uuid

theorem UUID.toInt_eq (u : UUID) : u.toInt = (u.toNat : Int) := big.SetBytes_eq u.bytes

theorem UUID.toNat_lt (u : UUID) : u.toNat < 2 ^ 128 := by
  have h := beVal_lt (u.bytes.map Fin.val) (bytes_lt u.bytes)
  rw [List.length_map, u.size] at h
  exact lt_of_lt_of_le h (by norm_num)

/-- The bytes of the integer of a UUID, copied to the end of 16 zero bytes, are the UUID. -/
theorem UUID.bytes_of_toNat (u : UUID) :
    copyFrom (List.replicate 16 0) (16 - (big.natBytes u.toNat).length) (big.natBytes u.toNat)
      = u.bytes := by
  have hlen : (big.natBytes u.toNat).length ≤ 16 :=
    big.natBytes_length_le 16 _ (lt_of_lt_of_le u.toNat_lt (by norm_num))
  rw [copyFrom_zeros 16 _ hlen]
  apply List.map_injective_iff.mpr Fin.val_injective
  apply beVal_inj (b := 256)
  · simp only [List.length_map, List.length_append, List.length_replicate, u.size]; omega
  · exact bytes_lt _
  · exact bytes_lt _
  · rw [List.map_append, beVal_append, big.beVal_natBytes]
    have hz : List.map Fin.val (List.replicate (16 - (big.natBytes u.toNat).length) (0 : Byte))
        = List.replicate (16 - (big.natBytes u.toNat).length) 0 := by simp
    rw [hz, beVal_replicate_zero]
    simp [UUID.toNat]

end uuid

/-! ## The UUID adapter of package `src` -/

namespace src

theorem natText_valid {b : Nat} (hb : 2 ≤ b) (hb62 : b ≤ 62) (n : Nat) :
    ∀ c ∈ natText b n, c ∈ alphabet ∧ (alphabet.indexOf c : Int) < (b : Int) := by
  intro c hc
  unfold natText at hc
  split at hc
  · rw [List.mem_singleton.mp hc]
    exact ⟨zero_mem_alphabet, by rw [indexOf_zero]; omega⟩
  · exact digitsText_valid hb hb62 n c hc

theorem valBE_natText {b : Nat} (hb : 2 ≤ b) (hb62 : b ≤ 62) (n : Nat) :
    valBE (b : Int) (natText b n) = (n : Int) := by
  unfold natText
  split
  · next h => subst h; simp [valBE, indexOf_zero]
  · exact valBE_digitsText hb hb62 n

theorem BigInt2String_natCast (n b : Nat) (hb : 2 ≤ b) (hb62 : b ≤ 62) :
    BigInt2String (n : Int) (b : Int) = Outcome.ret (natText b n) none := by
  rw [BigInt2String_eq (by omega) (by omega) (by omega), Int.toNat_ofNat, Int.toNat_ofNat,
    natText]
  by_cases hn : n = 0
  · subst hn; simp
  · have hne : (n : Int) ≠ 0 := by omega
    rw [if_neg hne, if_neg hn]

theorem natText_length_le {b k n : Nat} (hb : 2 ≤ b) (hk : 1 ≤ k) (hn : n < b ^ k) :
    (natText b n).length ≤ k := by
  unfold natText
  split
  · simpa using hk
  · next h =>
    rw [digitsText, List.length_map, List.length_reverse, Nat.digits_len b n (by omega) h]
    exact Nat.log_lt_of_lt_pow h hn

theorem natText_length_ge {b k n : Nat} (hb : 2 ≤ b) (hn : b ^ k ≤ n) :
    k + 1 ≤ (natText b n).length := by
  have hpos : 0 < b ^ k := pow_pos (by omega) k
  have h0 : n ≠ 0 := by omega
  rw [natText, if_neg h0, digitsText, List.length_map, List.length_reverse]
  have h := @Nat.lt_base_pow_length_digits b n (by omega)
  have hlt : b ^ k < b ^ (Nat.digits b n).length := lt_of_le_of_lt hn h
  have := (Nat.pow_lt_pow_iff_right (show 1 < b by omega)).mp hlt
  omega

theorem space_not_mem : ' ' ∉ alphabet := by decide

theorem Replace_Sprintf (w : Nat) (s : List Char) (hs : ∀ c ∈ s, c ∈ alphabet) :
    strings.Replace (fmt.Sprintf w s) ' ' '0' = List.replicate (w - s.length) '0' ++ s := by
  have hmap : List.map (fun c => if c = ' ' then '0' else c) s = s := by
    conv_rhs => rw [← List.map_id s]
    apply List.map_congr_left
    intro c hc
    have hne : c ≠ ' ' := fun h => space_not_mem (h ▸ hs c hc)
    simp [hne]
  simp [strings.Replace, fmt.Sprintf, hmap]

/-- The value of `Uuid2Base62String`: the text of the UUID's integer in base 62, with zeroes
in front up to 23 characters when `pad` is set. -/
theorem Uuid2Base62String_eq (u : uuid.UUID) (pad : Bool) :
    Uuid2Base62String u pad =
      Outcome.ret (if pad then
          List.replicate (23 - (natText 62 u.toNat).length) '0' ++ natText 62 u.toNat
        else natText 62 u.toNat) none := by
  have henc : BigInt2String (big.SetBytes u.bytes) 62 = Outcome.ret (natText 62 u.toNat) none := by
    have h := BigInt2String_natCast u.toNat 62 (by decide) (by decide)
    rw [← u.toInt_eq] at h
    exact h
  unfold Uuid2Base62String
  simp only [uuid.MarshalBinary, henc]
  cases pad
  · simp
  · have hs : ∀ c ∈ natText 62 u.toNat, c ∈ alphabet :=
      fun c hc => (natText_valid (by decide) (by decide) u.toNat c hc).1
    simp [Replace_Sprintf 23 _ hs]

theorem String2BigInt_zeros_append {r : Int} (h2 : 2 ≤ r) (h62 : r ≤ 62) (s : List Char)
    (k : Nat) (hs : ∀ c ∈ s, c ∈ alphabet ∧ (alphabet.indexOf c : Int) < r) :
    String2BigInt (List.replicate k '0' ++ s) r = Outcome.ret (valBE r s) none := by
  have hall : ∀ c ∈ List.replicate k '0' ++ s,
      c ∈ alphabet ∧ (alphabet.indexOf c : Int) < r := by
    intro c hc
    rcases List.mem_append.mp hc with hc | hc
    · rw [(List.mem_replicate.mp hc).2]
      exact ⟨zero_mem_alphabet, by rw [indexOf_zero]; omega⟩
    · exact hs c hc
  rw [String2BigInt_ok h2 h62 _ hall, valBE_append, valBE_replicate_zero]
  simp

/-- A text that decodes to the integer of a UUID is turned into that UUID. -/
theorem Base62String2Uuid_of_value (s : List Char) (u : uuid.UUID)
    (hs : String2BigInt s 62 = Outcome.ret (u.toNat : Int) none) :
    Base62String2Uuid s = Outcome.ret u none := by
  have hlen : (big.natBytes u.toNat).length ≤ 16 :=
    big.natBytes_length_le 16 _ (lt_of_lt_of_le u.toNat_lt (by norm_num))
  have hnot : ¬ 16 < (big.natBytes u.toNat).length := by omega
  unfold Base62String2Uuid
  simp only [hs, big.Bytes, Int.natAbs_ofNat, hnot, if_false, u.bytes_of_toNat,
    uuid.UnmarshalBinary, u.size, dite_true]

theorem Uuid2Base62String_decodes (u : uuid.UUID) (pad : Bool) :
    String2BigInt (if pad then
          List.replicate (23 - (natText 62 u.toNat).length) '0' ++ natText 62 u.toNat
        else natText 62 u.toNat) 62 = Outcome.ret (u.toNat : Int) none := by
  have hv := natText_valid (b := 62) (by decide) (by decide) u.toNat
  have hval : valBE (62 : Int) (natText 62 u.toNat) = (u.toNat : Int) := by
    exact_mod_cast valBE_natText (b := 62) (by decide) (by decide) u.toNat
  cases pad
  · have h := String2BigInt_zeros_append (r := 62) (by decide) (by decide) _ 0 hv
    simp only [List.replicate_zero, List.nil_append, hval] at h
    simpa using h
  · have h := String2BigInt_zeros_append (r := 62) (by decide) (by decide) _
      (23 - (natText 62 u.toNat).length) hv
    rw [hval] at h
    simpa using h

theorem natText_uuid_length_le (u : uuid.UUID) : (natText 62 u.toNat).length ≤ 22 :=
  natText_length_le (by decide) (by decide) (lt_of_lt_of_le u.toNat_lt (by norm_num))

/-- C2. UUID round trip: for every UUID `u` and both values of `pad`,
`Uuid2Base62String u pad` returns a string `s` with a nil error, and `Base62String2Uuid s`
returns `u` with a nil error. -/
theorem uuid_round_trip (u : uuid.UUID) (pad : Bool) :
    ∃ s, Uuid2Base62String u pad = Outcome.ret s none ∧
      Base62String2Uuid s = Outcome.ret u none :=
  ⟨_, Uuid2Base62String_eq u pad,
    Base62String2Uuid_of_value _ u (Uuid2Base62String_decodes u pad)⟩

/-- C4. For every UUID `u`, the padded encoding has length exactly 23 and is the unpadded
encoding `s` with `23 - s.length` characters '0' in front of it, `s` itself being kept as
it is. -/
theorem padded_eq_zeros_append (u : uuid.UUID) :
    ∃ s, Uuid2Base62String u false = Outcome.ret s none ∧
      Uuid2Base62String u true = Outcome.ret (List.replicate (23 - s.length) '0' ++ s) none ∧
      (List.replicate (23 - s.length) '0' ++ s).length = 23 := by
  refine ⟨natText 62 u.toNat, ?_, ?_, ?_⟩
  · rw [Uuid2Base62String_eq]; rfl
  · rw [Uuid2Base62String_eq]; rfl
  · have h := natText_uuid_length_le u
    rw [List.length_append, List.length_replicate]
    omega

end src

/-! ## Width and order of the encodings -/

namespace src

theorem valBE_eq_beVal (b : Nat) (s : List Char) :
    valBE (b : Int) s = ((beVal b (digitValues s) : Nat) : Int) := by
  induction s with
  | nil => simp [valBE, beVal, digitValues]
  | cons c s ih =>
    rw [valBE, ih]
    simp only [digitValues, List.map_cons, beVal, List.length_map]
    push_cast
    ring

theorem digitValues_lt {b : Nat} (s : List Char)
    (hs : ∀ c ∈ s, c ∈ alphabet ∧ (alphabet.indexOf c : Int) < (b : Int)) :
    ∀ d ∈ digitValues s, d < b := by
  intro d hd
  obtain ⟨c, hc, rfl⟩ := List.mem_map.mp hd
  exact_mod_cast (hs c hc).2

/-- The digit values of a padded encoding: 23 digits below 62 whose value is the UUID's
integer. -/
theorem padded_digits (u : uuid.UUID) :
    (digitValues
        (List.replicate (23 - (natText 62 u.toNat).length) '0' ++ natText 62 u.toNat)).length = 23
      ∧ (∀ d ∈ digitValues
        (List.replicate (23 - (natText 62 u.toNat).length) '0' ++ natText 62 u.toNat), d < 62)
      ∧ beVal 62 (digitValues
        (List.replicate (23 - (natText 62 u.toNat).length) '0' ++ natText 62 u.toNat))
          = u.toNat := by
  have hlen := natText_uuid_length_le u
  have hv := natText_valid (b := 62) (by decide) (by decide) u.toNat
  have hall : ∀ c ∈ List.replicate (23 - (natText 62 u.toNat).length) '0' ++ natText 62 u.toNat,
      c ∈ alphabet ∧ (alphabet.indexOf c : Int) < ((62 : Nat) : Int) := by
    intro c hc
    rcases List.mem_append.mp hc with hc | hc
    · rw [(List.mem_replicate.mp hc).2]
      exact ⟨zero_mem_alphabet, by rw [indexOf_zero]; decide⟩
    · exact hv c hc
  refine ⟨?_, digitValues_lt _ hall, ?_⟩
  · simp only [digitValues, List.length_map, List.length_append, List.length_replicate]
    omega
  · have h1 := valBE_eq_beVal 62
      (List.replicate (23 - (natText 62 u.toNat).length) '0' ++ natText 62 u.toNat)
    rw [valBE_append, valBE_replicate_zero, zero_mul, zero_add,
      valBE_natText (by decide) (by decide)] at h1
    exact_mod_cast h1.symm

/-- Integer order of two UUIDs is the lexicographic order of the digit values of their
padded encodings. -/
theorem padded_lex_iff (u v : uuid.UUID) :
    u.toNat < v.toNat ↔
      List.Lex (fun x y => x < y)
        (digitValues
          (List.replicate (23 - (natText 62 u.toNat).length) '0' ++ natText 62 u.toNat))
        (digitValues
          (List.replicate (23 - (natText 62 v.toNat).length) '0' ++ natText 62 v.toNat)) := by
  obtain ⟨hlu, hdu, hvu⟩ := padded_digits u
  obtain ⟨hlv, hdv, hvv⟩ := padded_digits v
  have h := beVal_lt_iff_lex (b := 62) _ _ (hlu.trans hlv.symm) hdu hdv
  rw [hvu, hvv] at h
  exact h

/-- C3, amended. For all UUIDs `u` and `v`, the integer of `u` is less than that of `v` if
and only if the padded encoding of `u` precedes that of `v` lexicographically when each
character is compared by its digit value, that is its position in the alphabet. -/
theorem padded_order_by_digit_value (u v : uuid.UUID) :
    ∃ s t, Uuid2Base62String u true = Outcome.ret s none ∧
      Uuid2Base62String v true = Outcome.ret t none ∧
      (u.toInt < v.toInt ↔
        List.Lex (fun x y => x < y) (digitValues s) (digitValues t)) := by
  refine ⟨_, _, Uuid2Base62String_eq u true, Uuid2Base62String_eq v true, ?_⟩
  rw [u.toInt_eq, v.toInt_eq, Int.ofNat_lt, padded_lex_iff u v]
  simp only [if_true]

/-- C3, counterexample. The UUID of integer 10 is below the UUID of integer 36, their padded
encodings end in 'a' and in 'A', and in byte order the first does not precede the second. -/
theorem byte_order_counterexample :
    uuidTen.toInt < uuidThirtySix.toInt ∧
      Uuid2Base62String uuidTen true = Outcome.ret "0000000000000000000000a".toList none ∧
      Uuid2Base62String uuidThirtySix true
        = Outcome.ret "0000000000000000000000A".toList none ∧
      ¬ List.Lex (fun a b : Char => a < b)
        "0000000000000000000000a".toList "0000000000000000000000A".toList := by
  have h10 : uuidTen.toNat = 10 := by decide
  have h36 : uuidThirtySix.toNat = 36 := by decide
  have t10 : natText 62 10 = ['a'] := by
    simp [natText, digitsText]; decide
  have t36 : natText 62 36 = ['A'] := by
    simp [natText, digitsText]; decide
  refine ⟨?_, ?_, ?_, by decide⟩
  · rw [uuid.UUID.toInt_eq, uuid.UUID.toInt_eq, h10, h36]; decide
  · rw [Uuid2Base62String_eq, h10, t10]; decide
  · rw [Uuid2Base62String_eq, h36, t36]; decide

theorem uuidMax_toNat : uuidMax.toNat = 2 ^ 128 - 1 := by decide

/-- C5, counterexample. No UUID has an unpadded encoding of 23 characters, and `62 ^ 22` is
not below `2 ^ 128`. -/
theorem no_uuid_needs_23_characters :
    (¬ ∃ (u : uuid.UUID) (s : List Char),
        Uuid2Base62String u false = Outcome.ret s none ∧ s.length = 23) ∧
      ¬ ((62 : Nat) ^ 22 < 2 ^ 128) := by
  refine ⟨?_, by norm_num⟩
  rintro ⟨u, s, hs, hlen⟩
  rw [Uuid2Base62String_eq] at hs
  have h := natText_uuid_length_le u
  cases hs
  simp only [Bool.false_eq_true, if_false] at hlen
  omega

/-- C5, amended. The unpadded encoding of every UUID has at most 22 characters, one less
than the pad width 23; the UUID of all bytes `ff` has an unpadded encoding of exactly 22
characters; and `62 ^ 21 < 2 ^ 128 ≤ 62 ^ 22`. -/
theorem unpadded_length_at_most_22 :
    (∀ u : uuid.UUID, ∃ s, Uuid2Base62String u false = Outcome.ret s none ∧ s.length ≤ 22) ∧
      (∃ s, Uuid2Base62String uuidMax false = Outcome.ret s none ∧ s.length = 22) ∧
      ((62 : Nat) ^ 21 < 2 ^ 128 ∧ (2 : Nat) ^ 128 ≤ 62 ^ 22) := by
  refine ⟨?_, ?_, by norm_num, by norm_num⟩
  · intro u
    exact ⟨_, Uuid2Base62String_eq u false, natText_uuid_length_le u⟩
  · refine ⟨_, Uuid2Base62String_eq uuidMax false, ?_⟩
    have hle := natText_uuid_length_le uuidMax
    have hge : 21 + 1 ≤ (natText 62 uuidMax.toNat).length :=
      natText_length_ge (by decide) (by rw [uuidMax_toNat]; norm_num)
    simp only [Bool.false_eq_true, if_false]
    omega

end src

/-! ## The codec of package `uuid62` -/

namespace uuid62

/-- C7, the code at the failing input. The root package's `BigInt2String` returns the empty
string for zero at radix 62, and its `Uuuid2Base62String` returns the empty string for the
all-zero UUID, where the package's tests expect "0". -/
theorem root_zero_is_empty :
    BigInt2String 0 62 = Outcome.ret [] none ∧
      Uuuid2Base62String uuid.UUID.zero = Outcome.ret [] none := by
  have h : BigInt2String 0 62 = Outcome.ret [] none := by
    simp [BigInt2String, BigInt2String.loop]
  refine ⟨h, ?_⟩
  have hz : big.SetBytes uuid.UUID.zero.bytes = 0 := by decide
  simp only [Uuuid2Base62String, uuid.MarshalBinary, hz, h]

end uuid62

/-! ## Errors, faults and vectors of package `src` -/

namespace big

theorem natBytes_length_gt (k : Nat) : ∀ n : Nat, 256 ^ k ≤ n → k < (natBytes n).length := by
  induction k with
  | zero =>
    intro n hn
    have h0 : n ≠ 0 := by
      intro h; subst h; simp at hn
    rw [natBytes_pos h0, List.length_append, List.length_singleton]
    omega
  | succ k ih =>
    intro n hn
    have hpos : 0 < 256 ^ (k + 1) := pow_pos (by decide) _
    have h0 : n ≠ 0 := by omega
    have hdiv : 256 ^ k ≤ n / 256 := by
      rw [Nat.le_div_iff_mul_le (by decide)]
      rw [pow_succ] at hn
      exact hn
    rw [natBytes_pos h0, List.length_append, List.length_singleton]
    exact Nat.succ_lt_succ (ih _ hdiv)

end big

namespace src

/-- A text with a character that is not a base-62 digit gives the zero UUID and a nil
error. -/
theorem Base62String2Uuid_of_bad (s : List Char)
    (hs : ∃ c ∈ s, c ∉ alphabet ∨ (62 : Int) ≤ (alphabet.indexOf c : Int)) :
    Base62String2Uuid s = Outcome.ret uuid.UUID.zero none := by
  unfold Base62String2Uuid
  rw [String2BigInt_bad (by decide) (by decide) s hs]

/-- A text that decodes to an integer of more than 16 bytes makes the slice expression
panic. -/
theorem Base62String2Uuid_of_large (s : List Char) (v : Nat)
    (hs : String2BigInt s 62 = Outcome.ret (v : Int) none) (hv : 2 ^ 128 ≤ v) :
    Base62String2Uuid s = Outcome.panic := by
  have hlen : 16 < (big.natBytes v).length :=
    big.natBytes_length_gt 16 v (le_trans (by norm_num) hv)
  unfold Base62String2Uuid
  simp only [hs, big.Bytes, Int.natAbs_ofNat, hlen, if_true]

theorem indexOf_Z : alphabet.indexOf 'Z' = 61 := by decide

theorem Z_mem_alphabet : 'Z' ∈ alphabet := by decide

theorem valBE_replicate_Z (k : Nat) :
    valBE 62 (List.replicate k 'Z') = (62 : Int) ^ k - 1 := by
  induction k with
  | zero => simp [valBE]
  | succ k ih =>
    rw [List.replicate_succ, valBE, ih, List.length_replicate, indexOf_Z, pow_succ]
    push_cast
    ring

/-- C11, the code at the failing input. The text "-" has no base-62 digit, `String2BigInt`
returns the digit error for it, and `Base62String2Uuid` returns the zero UUID with a nil
error. -/
theorem adapter_swallows_digit_error :
    String2BigInt ['-'] 62 = Outcome.ret 0 (some GoError.digit) ∧
      Base62String2Uuid ['-'] = Outcome.ret uuid.UUID.zero none :=
  ⟨by decide, Base62String2Uuid_of_bad ['-'] ⟨'-', by decide, Or.inl (by decide)⟩⟩

/-- C12, the code at the failing input. The text of 23 characters 'Z' decodes to
`62 ^ 23 - 1` with a nil error, a value of more than 16 bytes, and `Base62String2Uuid`
panics on it. -/
theorem adapter_panics_on_overflow :
    String2BigInt (List.replicate 23 'Z') 62 = Outcome.ret (62 ^ 23 - 1) none ∧
      Base62String2Uuid (List.replicate 23 'Z') = Outcome.panic := by
  have hvalid : ∀ c ∈ List.replicate 23 'Z',
      c ∈ alphabet ∧ (alphabet.indexOf c : Int) < (62 : Int) := by
    intro c hc
    rw [(List.mem_replicate.mp hc).2, indexOf_Z]
    exact ⟨Z_mem_alphabet, by decide⟩
  have hdec : String2BigInt (List.replicate 23 'Z') 62 = Outcome.ret (62 ^ 23 - 1) none := by
    rw [String2BigInt_ok (by decide) (by decide) _ hvalid, valBE_replicate_Z]
  refine ⟨hdec, ?_⟩
  apply Base62String2Uuid_of_large _ (62 ^ 23 - 1)
  · rw [hdec]; norm_num
  · norm_num

/-- C15. Empty text decodes to zero: for every radix `r` with `2 ≤ r ≤ 62`,
`String2BigInt` of the empty string returns 0 with a nil error. -/
theorem decode_empty (r : Int) (h2 : 2 ≤ r) (h62 : r ≤ 62) :
    String2BigInt [] r = Outcome.ret 0 none := by
  have hbad : ¬ (r < 2 ∨ r > 62) := by omega
  simp [String2BigInt, String2BigInt.loop, hbad]

/-- The empty text decodes to zero at radix 62. -/
theorem decode_empty_witness :
    (2 : Int) ≤ 62 ∧ (62 : Int) ≤ 62 ∧ String2BigInt [] 62 = Outcome.ret 0 none :=
  ⟨by decide, by decide, decode_empty 62 (by decide) (by decide)⟩

end src

namespace src

theorem natText_13 : natText 2 13 = "1101".toList := by
  simp [natText, digitsText]; decide

theorem natText_deadbeef : natText 16 59774123759 = "dead0beef".toList := by
  simp [natText, digitsText]; decide

theorem natText_61 : natText 62 61 = "Z".toList := by
  simp [natText, digitsText]; decide

theorem natText_63 : natText 62 63 = "11".toList := by
  simp [natText, digitsText]; decide

theorem natText_1 : natText 62 1 = "1".toList := by
  simp [natText, digitsText]; decide

/-- C13. Boundary vectors of encode: 13 at radix 2 is "1101", 59774123759 at radix 16 is
"dead0beef", and at radix 62 the integers 61, 63 and 1 are "Z", "11" and "1", each with a
nil error; `String2BigInt` maps each of these strings back to its integer at the same
radix. -/
theorem boundary_vectors :
    BigInt2String 13 2 = Outcome.ret "1101".toList none ∧
      BigInt2String 59774123759 16 = Outcome.ret "dead0beef".toList none ∧
      BigInt2String 61 62 = Outcome.ret "Z".toList none ∧
      BigInt2String 63 62 = Outcome.ret "11".toList none ∧
      BigInt2String 1 62 = Outcome.ret "1".toList none ∧
      String2BigInt "1101".toList 2 = Outcome.ret 13 none ∧
      String2BigInt "dead0beef".toList 16 = Outcome.ret 59774123759 none ∧
      String2BigInt "Z".toList 62 = Outcome.ret 61 none ∧
      String2BigInt "11".toList 62 = Outcome.ret 63 none ∧
      String2BigInt "1".toList 62 = Outcome.ret 1 none := by
  have e1 := BigInt2String_natCast 13 2 (by decide) (by decide)
  have e2 := BigInt2String_natCast 59774123759 16 (by decide) (by decide)
  have e3 := BigInt2String_natCast 61 62 (by decide) (by decide)
  have e4 := BigInt2String_natCast 63 62 (by decide) (by decide)
  have e5 := BigInt2String_natCast 1 62 (by decide) (by decide)
  rw [natText_13] at e1
  rw [natText_deadbeef] at e2
  rw [natText_61] at e3
  rw [natText_63] at e4
  rw [natText_1] at e5
  refine ⟨?_, ?_, ?_, ?_, ?_, by decide, by decide, by decide, by decide, by decide⟩
  · exact_mod_cast e1
  · exact_mod_cast e2
  · exact_mod_cast e3
  · exact_mod_cast e4
  · exact_mod_cast e5

theorem zero_toNat : uuid.UUID.zero.toNat = 0 := by decide

theorem uuidVectorB9_toNat :
    uuidVectorB9.toNat = 64427095319282327524487190837522452153 := by decide

theorem uuidVectorBA_toNat :
    uuidVectorBA.toNat = 64427095319282327524487190837522452154 := by decide

theorem natText_vectorB9 :
    natText 62 64427095319282327524487190837522452153 = "1tsz7Nk9Grmziqc5gFI0pX".toList := by
  simp [natText, digitsText]; decide

theorem natText_vectorBA :
    natText 62 64427095319282327524487190837522452154 = "1tsz7Nk9Grmziqc5gFI0pY".toList := by
  simp [natText, digitsText]; decide

theorem natText_zero : natText 62 0 = "0".toList := by
  simp [natText]

/-- C14. Known UUID vectors: without padding the all-zero UUID encodes to "0", the UUID
`3078350b-bfd0-41ff-8cc2-3a3a7969ceb9` to "1tsz7Nk9Grmziqc5gFI0pX" and the UUID
`3078350b-bfd0-41ff-8cc2-3a3a7969ceba` to "1tsz7Nk9Grmziqc5gFI0pY", and `Base62String2Uuid`
maps each of the three strings back to its UUID with a nil error. -/
theorem known_uuid_vectors :
    Uuid2Base62String uuid.UUID.zero false = Outcome.ret "0".toList none ∧
      Uuid2Base62String uuidVectorB9 false
        = Outcome.ret "1tsz7Nk9Grmziqc5gFI0pX".toList none ∧
      Uuid2Base62String uuidVectorBA false
        = Outcome.ret "1tsz7Nk9Grmziqc5gFI0pY".toList none ∧
      Base62String2Uuid "0".toList = Outcome.ret uuid.UUID.zero none ∧
      Base62String2Uuid "1tsz7Nk9Grmziqc5gFI0pX".toList = Outcome.ret uuidVectorB9 none ∧
      Base62String2Uuid "1tsz7Nk9Grmziqc5gFI0pY".toList = Outcome.ret uuidVectorBA none := by
  have e0 := Uuid2Base62String_eq uuid.UUID.zero false
  have e1 := Uuid2Base62String_eq uuidVectorB9 false
  have e2 := Uuid2Base62String_eq uuidVectorBA false
  have d0 := Uuid2Base62String_decodes uuid.UUID.zero false
  have d1 := Uuid2Base62String_decodes uuidVectorB9 false
  have d2 := Uuid2Base62String_decodes uuidVectorBA false
  simp only [Bool.false_eq_true, if_false] at e0 e1 e2 d0 d1 d2
  rw [zero_toNat, natText_zero] at e0
  rw [uuidVectorB9_toNat, natText_vectorB9] at e1
  rw [uuidVectorBA_toNat, natText_vectorBA] at e2
  have t0 : natText 62 uuid.UUID.zero.toNat = "0".toList := by rw [zero_toNat, natText_zero]
  have t1 : natText 62 uuidVectorB9.toNat = "1tsz7Nk9Grmziqc5gFI0pX".toList := by
    rw [uuidVectorB9_toNat, natText_vectorB9]
  have t2 : natText 62 uuidVectorBA.toNat = "1tsz7Nk9Grmziqc5gFI0pY".toList := by
    rw [uuidVectorBA_toNat, natText_vectorBA]
  rw [t0] at d0
  rw [t1] at d1
  rw [t2] at d2
  exact ⟨e0, e1, e2, Base62String2Uuid_of_value _ _ d0, Base62String2Uuid_of_value _ _ d1,
    Base62String2Uuid_of_value _ _ d2⟩

end src

/-! ## The two packages compared -/

namespace uuid62

theorem alphabet_eq : alphabet = src.alphabet := rfl

theorem loop_eq_src (base : Int) (hb : 2 ≤ base) :
    ∀ (k : Nat) (i : Int) (acc : List Char), i.toNat = k →
      BigInt2String.loop base hb i acc = src.BigInt2String.loop base hb i acc := by
  intro k
  induction k using Nat.strong_induction_on with
  | _ k ih =>
    intro i acc hk
    rw [BigInt2String.loop, src.BigInt2String.loop]
    by_cases h : 0 < i
    · rw [dif_pos h, dif_pos h, alphabet_eq]
      cases index src.alphabet (i.tmod base) with
      | none => rfl
      | some c =>
        have h1 : i.tdiv base = i / base := Int.tdiv_eq_ediv (le_of_lt h) (by omega)
        have h2 : i / base < i := Int.ediv_lt_of_lt_mul (by omega) (by nlinarith)
        exact ih (i.tdiv base).toNat (by omega) _ _ rfl
    · rw [dif_neg h, dif_neg h]

/-- The root package's `BigInt2String` on a natural number and radix 62: the digits, and
the empty string for zero. -/
theorem BigInt2String_root_natCast (n : Nat) :
    BigInt2String (n : Int) 62 = Outcome.ret (src.digitsText 62 n) none := by
  have hbad : ¬ ((62 : Int) < 2 ∨ (62 : Int) > 62) := by decide
  have hl := src.BigInt2String.loop_eq 62 (by decide) (by decide) n []
  rw [List.append_nil] at hl
  unfold BigInt2String
  rw [dif_neg hbad, loop_eq_src 62 (by decide) _ _ _ rfl]
  have hl2 : src.BigInt2String.loop 62 (by decide) (n : Int) [] = some (src.digitsText 62 n) := by
    exact_mod_cast hl
  rw [hl2]

theorem Uuuid2Base62String_eq (u : uuid.UUID) :
    Uuuid2Base62String u = Outcome.ret (src.digitsText 62 u.toNat) none := by
  have h := BigInt2String_root_natCast u.toNat
  rw [← u.toInt_eq] at h
  simp only [Uuuid2Base62String, uuid.MarshalBinary]
  exact h

/-- Away from the all-zero UUID the two encoders agree. -/
theorem Uuuid2Base62String_eq_src (u : uuid.UUID) (hu : u.toNat ≠ 0) :
    Uuuid2Base62String u = src.Uuid2Base62String u false := by
  rw [Uuuid2Base62String_eq, src.Uuid2Base62String_eq, src.natText, if_neg hu]
  rfl

/-- C16, the code at the failing input. For the all-zero UUID the root package's
`Uuuid2Base62String` returns the empty string, while `Uuid2Base62String` of package `src`
without padding returns "0"; the two differ. -/
theorem root_adapter_differs_at_zero :
    Uuuid2Base62String uuid.UUID.zero = Outcome.ret [] none ∧
      src.Uuid2Base62String uuid.UUID.zero false = Outcome.ret "0".toList none ∧
      Uuuid2Base62String uuid.UUID.zero ≠ src.Uuid2Base62String uuid.UUID.zero false := by
  have h1 : Uuuid2Base62String uuid.UUID.zero = Outcome.ret [] none := by
    rw [Uuuid2Base62String_eq, src.zero_toNat, src.digitsText_zero]
  have h2 : src.Uuid2Base62String uuid.UUID.zero false = Outcome.ret "0".toList none := by
    rw [src.Uuid2Base62String_eq, src.zero_toNat, src.natText_zero]
    rfl
  refine ⟨h1, h2, ?_⟩
  rw [h1, h2]
  decide

end uuid62

/-! ## Decoding into a UUID, and the order of padded encodings -/

namespace src

/-- A text that decodes without error has only base-62 digits, and its value is that of
its digit values. -/
theorem String2BigInt_value (s : List Char) (v : Int)
    (hs : String2BigInt s 62 = Outcome.ret v none) :
    (∀ c ∈ s, c ∈ alphabet ∧ (alphabet.indexOf c : Int) < 62) ∧
      v = ((beVal 62 (digitValues s) : Nat) : Int) := by
  rcases valid_or_bad 62 s with h | h
  · rw [String2BigInt_ok (by decide) (by decide) s h] at hs
    have hv : valBE 62 s = v := by cases hs; rfl
    have hb := valBE_eq_beVal 62 s
    refine ⟨h, ?_⟩
    rw [← hv]
    exact_mod_cast hb
  · rw [String2BigInt_bad (by decide) (by decide) s h] at hs
    cases hs

/-- A text that decodes to an integer below `2 ^ 128` gives the UUID of that integer. -/
theorem Base62String2Uuid_of_small (s : List Char) (m : Nat)
    (hs : String2BigInt s 62 = Outcome.ret (m : Int) none) (hm : m < 2 ^ 128) :
    ∃ u : uuid.UUID, Base62String2Uuid s = Outcome.ret u none ∧
      u.bytes = List.replicate (16 - (big.natBytes m).length) 0 ++ big.natBytes m ∧
      u.toNat = m := by
  have hlen : (big.natBytes m).length ≤ 16 :=
    big.natBytes_length_le 16 _ (lt_of_lt_of_le hm (by norm_num))
  have hnot : ¬ 16 < (big.natBytes m).length := by omega
  have hdata : (List.replicate (16 - (big.natBytes m).length) (0 : Byte)
      ++ big.natBytes m).length = 16 := by
    rw [List.length_append, List.length_replicate]; omega
  refine ⟨⟨_, hdata⟩, ?_, rfl, ?_⟩
  · unfold Base62String2Uuid
    simp only [hs, big.Bytes, Int.natAbs_ofNat, hnot, if_false, copyFrom_zeros 16 _ hlen,
      uuid.UnmarshalBinary, dif_pos hdata]
  · have hz : List.map Fin.val (List.replicate (16 - (big.natBytes m).length) (0 : Byte))
        = List.replicate (16 - (big.natBytes m).length) 0 := by simp
    simp only [uuid.UUID.toNat]
    rw [List.map_append, beVal_append, big.beVal_natBytes, hz, beVal_replicate_zero]
    simp

/-- C18. Value correctness of the adapter's decode: for every text that `String2BigInt`
decodes at radix 62 to a value `v` with a nil error (so a text of base-62 digits only, with
any number of leading '0', or empty) and `v ≤ 2 ^ 128 - 1`, `Base62String2Uuid` returns with
a nil error the UUID whose 16 bytes are the big-endian bytes of `v` after zero bytes, the
UUID whose integer is `v`. -/
theorem adapter_decode_value (text : List Char) (v : Int)
    (hv : String2BigInt text 62 = Outcome.ret v none) (hle : v ≤ 2 ^ 128 - 1) :
    ∃ u : uuid.UUID, Base62String2Uuid text = Outcome.ret u none ∧
      u.bytes = List.replicate (16 - (big.Bytes v).length) 0 ++ big.Bytes v ∧
      u.toInt = v := by
  obtain ⟨_, hval⟩ := String2BigInt_value text v hv
  subst hval
  have hm : beVal 62 (digitValues text) < 2 ^ 128 := by
    have h : ((beVal 62 (digitValues text) : Nat) : Int) < 2 ^ 128 := by omega
    exact_mod_cast h
  obtain ⟨u, hu, hbytes, hnat⟩ := Base62String2Uuid_of_small text _ hv hm
  refine ⟨u, hu, ?_, ?_⟩
  · rw [big.Bytes, Int.natAbs_ofNat]; exact hbytes
  · rw [u.toInt_eq, hnat]

/-- The texts "11" and "00011" decode to 63, and the adapter returns the UUID of 63. -/
theorem adapter_decode_value_witness :
    String2BigInt "00011".toList 62 = Outcome.ret 63 none ∧
      ∃ u : uuid.UUID, Base62String2Uuid "00011".toList = Outcome.ret u none ∧
        u.bytes = List.replicate (16 - (big.Bytes 63).length) 0 ++ big.Bytes 63 ∧
        u.toInt = 63 :=
  ⟨by decide, adapter_decode_value "00011".toList 63 (by decide) (by norm_num)⟩

theorem lex_cons_cons_iff {α : Type} (r : α → α → Prop) (a b : α) (l₁ l₂ : List α) :
    List.Lex r (a :: l₁) (b :: l₂) ↔ r a b ∨ (a = b ∧ List.Lex r l₁ l₂) := by
  constructor
  · intro h
    cases h with
    | rel h => exact Or.inl h
    | cons h => exact Or.inr ⟨rfl, h⟩
  · rintro (h | ⟨rfl, h⟩)
    · exact List.Lex.rel h
    · exact List.Lex.cons h

/-- On texts of alphabet characters, comparing digit values and comparing characters by
alphabet position give the same lexicographic order. -/
theorem lex_digitValues_iff :
    ∀ (s t : List Char), (∀ c ∈ s, c ∈ alphabet) → (∀ c ∈ t, c ∈ alphabet) →
      (List.Lex (fun x y => x < y) (digitValues s) (digitValues t) ↔
        List.Lex (fun a b => alphabet.indexOf a < alphabet.indexOf b) s t) := by
  intro s
  induction s with
  | nil =>
    intro t _ _
    cases t with
    | nil =>
      constructor
      · intro h; cases h
      · intro h; cases h
    | cons b t =>
      constructor
      · intro _; exact List.Lex.nil
      · intro _; exact List.Lex.nil
  | cons a s ih =>
    intro t hs ht
    cases t with
    | nil =>
      constructor
      · intro h; cases h
      · intro h; cases h
    | cons b t =>
      have ha : a ∈ alphabet := hs a (List.mem_cons_self a s)
      have hb : b ∈ alphabet := ht b (List.mem_cons_self b t)
      have hrec := ih t (fun c hc => hs c (List.mem_cons_of_mem a hc))
        (fun c hc => ht c (List.mem_cons_of_mem b hc))
      have hd : digitValues (a :: s) = alphabet.indexOf a :: digitValues s := rfl
      have he : digitValues (b :: t) = alphabet.indexOf b :: digitValues t := rfl
      rw [hd, he, lex_cons_cons_iff, lex_cons_cons_iff, hrec, List.indexOf_inj ha hb]

theorem padded_mem_alphabet (u : uuid.UUID) :
    ∀ c ∈ List.replicate (23 - (natText 62 u.toNat).length) '0' ++ natText 62 u.toNat,
      c ∈ alphabet := by
  intro c hc
  rcases List.mem_append.mp hc with hc | hc
  · rw [(List.mem_replicate.mp hc).2]; exact zero_mem_alphabet
  · exact (natText_valid (b := 62) (by decide) (by decide) u.toNat c hc).1

/-- C20. Padded encodings preserve order under the alphabet's own digit order: for all
UUIDs `u` and `v`, the integer of `u` is less than that of `v` if and only if the padded
encoding of `u` precedes that of `v` lexicographically, a character preceding another when
its position in the alphabet is smaller. -/
theorem padded_order_by_alphabet (u v : uuid.UUID) :
    ∃ s t, Uuid2Base62String u true = Outcome.ret s none ∧
      Uuid2Base62String v true = Outcome.ret t none ∧
      (u.toInt < v.toInt ↔
        List.Lex (fun a b => alphabet.indexOf a < alphabet.indexOf b) s t) := by
  refine ⟨_, _, Uuid2Base62String_eq u true, Uuid2Base62String_eq v true, ?_⟩
  rw [u.toInt_eq, v.toInt_eq, Int.ofNat_lt, padded_lex_iff u v]
  simp only [if_true]
  exact lex_digitValues_iff _ _ (padded_mem_alphabet u) (padded_mem_alphabet v)

end src

/-! ## Canonical form of the encodings -/

theorem beVal_eq_ofDigits (b : Nat) (L : List Nat) : beVal b L = Nat.ofDigits b L.reverse := by
  induction L with
  | nil => simp [beVal]
  | cons d L ih =>
    rw [beVal, List.reverse_cons, Nat.ofDigits_append, ih, List.length_reverse,
      Nat.ofDigits_singleton]
    ring

namespace src

theorem digitChar_indexOf {c : Char} (hc : c ∈ alphabet) :
    digitChar (alphabet.indexOf c) = c := by
  have hlt : alphabet.indexOf c < alphabet.length := List.indexOf_lt_length.mpr hc
  simp [digitChar, List.getD_eq_getElem?_getD, List.getElem?_eq_getElem hlt]

theorem digitChar_zero : digitChar 0 = '0' := by decide

theorem indexOf_ne_zero {c : Char} (hc : c ∈ alphabet) (h0 : c ≠ '0') :
    alphabet.indexOf c ≠ 0 := by
  intro h
  apply h0
  rw [← digitChar_indexOf hc, h, digitChar_zero]

theorem digitChar_ne_zero {d : Nat} (hd : d < 62) (h0 : d ≠ 0) : digitChar d ≠ '0' := by
  intro h
  apply h0
  rw [← indexOf_digitChar hd, h, indexOf_zero]

/-- The digits of a positive number start with a character other than '0'. -/
theorem digitsText_head {b n : Nat} (hb : 2 ≤ b) (hb62 : b ≤ 62) (hn : n ≠ 0) :
    ∃ c rest, digitsText b n = c :: rest ∧ c ≠ '0' := by
  have hne : Nat.digits b n ≠ [] := Nat.digits_ne_nil_iff_ne_zero.mpr hn
  have hlast := Nat.getLast_digit_ne_zero b hn
  have hmem : (Nat.digits b n).getLast hne ∈ Nat.digits b n := List.getLast_mem hne
  have hlt : (Nat.digits b n).getLast hne < 62 :=
    lt_of_lt_of_le (Nat.digits_lt_base (by omega) hmem) hb62
  refine ⟨digitChar ((Nat.digits b n).getLast hne),
    ((Nat.digits b n).dropLast.reverse).map digitChar, ?_, digitChar_ne_zero hlt hlast⟩
  rw [digitsText]
  conv_lhs => rw [← List.dropLast_append_getLast hne]
  simp

theorem natText_canonical {b : Nat} (hb : 2 ≤ b) (hb62 : b ≤ 62) (n : Nat) :
    Canonical (b : Int) (natText b n) := by
  refine ⟨?_, natText_valid hb hb62 n, ?_⟩
  · unfold natText
    split
    · simp
    · next h =>
      obtain ⟨c, rest, hc, _⟩ := digitsText_head hb hb62 h
      rw [hc]; simp
  · intro hhead
    unfold natText at hhead ⊢
    split
    · rfl
    · next h =>
      exfalso
      rw [if_neg h] at hhead
      obtain ⟨c, rest, hc, hc0⟩ := digitsText_head hb hb62 h
      rw [hc] at hhead
      simp only [List.head?_cons, Option.some.injEq] at hhead
      exact hc0 hhead

theorem map_digitChar_digitValues (s : List Char) (hs : ∀ c ∈ s, c ∈ alphabet) :
    (digitValues s).map digitChar = s := by
  induction s with
  | nil => rfl
  | cons c s ih =>
    have hd : digitValues (c :: s) = alphabet.indexOf c :: digitValues s := rfl
    rw [hd, List.map_cons, digitChar_indexOf (hs c (List.mem_cons_self c s)),
      ih (fun d hd => hs d (List.mem_cons_of_mem c hd))]

/-- The text of the value of a canonical text is that text. -/
theorem natText_of_canonical {b : Nat} (hb : 2 ≤ b) (s : List Char)
    (hs : Canonical (b : Int) s) : natText b (beVal b (digitValues s)) = s := by
  obtain ⟨hne, hvalid, hhead⟩ := hs
  cases s with
  | nil => exact absurd rfl hne
  | cons c rest =>
    by_cases hc0 : c = '0'
    · have hs0 : c :: rest = ['0'] := hhead (by rw [hc0]; rfl)
      rw [hs0]
      have hv : beVal b (digitValues ['0']) = 0 := by
        simp [digitValues, beVal, indexOf_zero]
      rw [hv, natText, if_pos rfl]
    · have hcmem : c ∈ alphabet := (hvalid c (List.mem_cons_self c rest)).1
      have hlt : ∀ d ∈ (digitValues (c :: rest)).reverse, d < b := by
        intro d hd
        exact digitValues_lt _ hvalid d (List.mem_reverse.mp hd)
      have hlast : ∀ h : (digitValues (c :: rest)).reverse ≠ [],
          (digitValues (c :: rest)).reverse.getLast h ≠ 0 := by
        intro h
        rw [List.getLast_reverse]
        exact indexOf_ne_zero hcmem hc0
      have hdig := Nat.digits_ofDigits b (by omega) _ hlt hlast
      have hn0 : Nat.ofDigits b (digitValues (c :: rest)).reverse ≠ 0 := by
        apply Nat.digits_ne_nil_iff_ne_zero.mp
        rw [hdig]
        simp [digitValues]
      rw [beVal_eq_ofDigits, natText, if_neg hn0, digitsText, hdig, List.reverse_reverse,
        map_digitChar_digitValues _ (fun d hd => (hvalid d hd).1)]

/-- C19. Canonical form and reverse round trip: for every radix `r` with `2 ≤ r ≤ 62`, the
encoding of every `n ≥ 0` is non-empty, has only alphabet characters of position below `r`
and does not start with '0' unless it is "0"; and every text `s` of that shape decodes to a
value whose encoding is `s` again. -/
theorem canonical_form (r : Int) (h2 : 2 ≤ r) (h62 : r ≤ 62) :
    (∀ n : Int, 0 ≤ n → ∃ s, BigInt2String n r = Outcome.ret s none ∧ Canonical r s) ∧
      (∀ s, Canonical r s →
        ∃ v, String2BigInt s r = Outcome.ret v none ∧ BigInt2String v r = Outcome.ret s none) := by
  obtain ⟨b, rfl⟩ := Int.eq_ofNat_of_zero_le (show (0 : Int) ≤ r by omega)
  have hb : 2 ≤ b := by omega
  have hb62 : b ≤ 62 := by omega
  constructor
  · intro n hn
    obtain ⟨m, rfl⟩ := Int.eq_ofNat_of_zero_le hn
    exact ⟨_, BigInt2String_natCast m b hb hb62, natText_canonical hb hb62 m⟩
  · intro s hs
    refine ⟨_, String2BigInt_ok h2 h62 s hs.2.1, ?_⟩
    rw [valBE_eq_beVal, BigInt2String_natCast _ b hb hb62, natText_of_canonical hb s hs]

/-- At radix 62 the encoding of 61 is canonical, and the canonical text "1Z" decodes to a
value whose encoding is "1Z". -/
theorem canonical_form_witness :
    (∃ s, BigInt2String 61 62 = Outcome.ret s none ∧ Canonical 62 s) ∧
      ∃ v, String2BigInt "1Z".toList 62 = Outcome.ret v none ∧
        BigInt2String v 62 = Outcome.ret "1Z".toList none :=
  ⟨(canonical_form 62 (by decide) (by decide)).1 61 (by decide),
    (canonical_form 62 (by decide) (by decide)).2 "1Z".toList
      ⟨by decide, by decide, by decide⟩⟩

end src

/-! ## Stripping the padding -/

namespace src

theorem dropWhile_zeros_append (k : Nat) (s : List Char) :
    (List.replicate k '0' ++ s).dropWhile (fun c => c == '0')
      = s.dropWhile (fun c => c == '0') := by
  induction k with
  | zero => simp
  | succ k ih =>
    rw [List.replicate_succ, List.cons_append, List.dropWhile_cons]
    simp [ih]

theorem toNat_ne_zero (u : uuid.UUID) (hu : u ≠ uuid.UUID.zero) : u.toNat ≠ 0 := by
  intro h
  apply hu
  have hbytes : u.bytes.map Fin.val = uuid.UUID.zero.bytes.map Fin.val := by
    apply beVal_inj (b := 256)
    · rw [List.length_map, List.length_map, u.size, uuid.UUID.zero.size]
    · exact bytes_lt _
    · exact bytes_lt _
    · have hz := zero_toNat
      rw [uuid.UUID.toNat] at h hz
      rw [h, hz]
  have hb : u.bytes = uuid.UUID.zero.bytes :=
    List.map_injective_iff.mpr Fin.val_injective hbytes
  cases u
  cases hz : uuid.UUID.zero
  simp only [hz] at hb
  simp only [uuid.UUID.mk.injEq]
  exact hb

/-- The padded encoding of a UUID other than the all-zero one, stripped of its leading
'0' characters, is the unpadded encoding. -/
theorem stripped_padded_eq (u : uuid.UUID) (hu : u ≠ uuid.UUID.zero) :
    (List.replicate (23 - (natText 62 u.toNat).length) '0' ++ natText 62 u.toNat).dropWhile
      (fun c => c == '0') = natText 62 u.toNat := by
  have hn := toNat_ne_zero u hu
  obtain ⟨c, rest, hc, hc0⟩ := digitsText_head (b := 62) (by decide) (by decide) hn
  rw [dropWhile_zeros_append, natText, if_neg hn, hc, List.dropWhile_cons]
  simp [hc0]

/-- C17, amended. For every UUID `u` other than the all-zero UUID, stripping all leading
'0' characters from the padded encoding leaves exactly the unpadded encoding, which is
therefore a suffix of what remains. -/
theorem unpadded_suffix_of_stripped (u : uuid.UUID) (hu : u ≠ uuid.UUID.zero) :
    ∃ s p, Uuid2Base62String u false = Outcome.ret s none ∧
      Uuid2Base62String u true = Outcome.ret p none ∧
      p.dropWhile (fun c => c == '0') = s ∧
      List.IsSuffix s (p.dropWhile (fun c => c == '0')) := by
  refine ⟨_, _, Uuid2Base62String_eq u false, Uuid2Base62String_eq u true, ?_, ?_⟩
  · simp only [if_true, Bool.false_eq_true, if_false]
    exact stripped_padded_eq u hu
  · simp only [if_true, Bool.false_eq_true, if_false]
    rw [stripped_padded_eq u hu]

/-- The UUID of integer 10 is not the all-zero UUID, and its padded encoding stripped of
leading '0' characters is its unpadded encoding. -/
theorem unpadded_suffix_of_stripped_witness :
    uuidTen ≠ uuid.UUID.zero ∧
      ∃ s p, Uuid2Base62String uuidTen false = Outcome.ret s none ∧
        Uuid2Base62String uuidTen true = Outcome.ret p none ∧
        p.dropWhile (fun c => c == '0') = s ∧
        List.IsSuffix s (p.dropWhile (fun c => c == '0')) :=
  ⟨by decide, unpadded_suffix_of_stripped uuidTen (by decide)⟩

/-- C17, counterexample. For the all-zero UUID the padded encoding is 23 characters '0',
nothing remains of it after stripping the leading '0' characters, and the unpadded encoding
"0" is not a suffix of the empty string. -/
theorem stripped_zero_counterexample :
    Uuid2Base62String uuid.UUID.zero true = Outcome.ret (List.replicate 23 '0') none ∧
      Uuid2Base62String uuid.UUID.zero false = Outcome.ret "0".toList none ∧
      (List.replicate 23 '0').dropWhile (fun c => c == '0') = [] ∧
      ¬ List.IsSuffix "0".toList ((List.replicate 23 '0').dropWhile (fun c => c == '0')) := by
  have hp : Uuid2Base62String uuid.UUID.zero true
      = Outcome.ret (List.replicate 23 '0') none := by
    rw [Uuid2Base62String_eq, zero_toNat, natText_zero]
    decide
  have hs : Uuid2Base62String uuid.UUID.zero false = Outcome.ret "0".toList none := by
    rw [Uuid2Base62String_eq, zero_toNat, natText_zero]
    rfl
  have hd : (List.replicate 23 '0').dropWhile (fun c => c == '0') = [] := by decide
  refine ⟨hp, hs, hd, ?_⟩
  rw [hd]
  decide

end src
